import Mathlib

/-!
Shallow embedding of the token discovery-and-reconciliation pipeline:
`src/update_token_map_from_listedon.py` (namespace `UTM`) and
`src/scanner.py` (namespace `SC`).

Strings are modelled through their character lists; Python `str.lower`,
`str.upper`, `str.strip` and code-point comparison are reimplemented over
`List Char` so that all definitions evaluate inside the kernel.
Dates are modelled as integers counting days, so Python's
`(today - d).days` becomes integer subtraction.  Python `dict`s are
modelled as insertion-ordered association lists and Python `set`s as
lists with membership-guarded insertion, which preserves the membership,
cardinality and iteration-order semantics the scripts rely on.
HTTP and HTML are abstracted at the call boundary: a fetch becomes a
function from the request parameter (page number, symbol, asset id) to
the already-parsed row/JSON content, returning `Option`/`Except` for
transport failures exactly where the Python code sees `None` or an
exception.
-/

/-- Python `str.lower`, character by character. -/
def lowerStr (s : String) : String := ⟨s.data.map Char.toLower⟩

/-- Python `str.upper`, character by character. -/
def upperStr (s : String) : String := ⟨s.data.map Char.toUpper⟩

/-- Python `str.strip`: drop whitespace at both ends. -/
def stripStr (s : String) : String :=
  ⟨(((s.data.dropWhile Char.isWhitespace).reverse.dropWhile Char.isWhitespace).reverse)⟩

/-- Python code-point `<` on character lists (string comparison). -/
def charsLt : List Char → List Char → Bool
  | [], [] => false
  | [], _ :: _ => true
  | _ :: _, [] => false
  | a :: as, b :: bs =>
      if a < b then true
      else if b < a then false
      else charsLt as bs

/-- Python `<=` on pairs of strings, i.e. tuple comparison
`(a1, a2) <= (b1, b2)` with code-point string comparison. -/
def strPairLe (a b : String × String) : Bool :=
  if charsLt a.1.data b.1.data then true
  else if charsLt b.1.data a.1.data then false
  else !(charsLt b.2.data a.2.data)

namespace UTM

/-! Configuration constants of `update_token_map_from_listedon.py`. -/

def BASE_URL : String := "https://listedon.org"

def TARGET_EXCHANGES : List String :=
  ["mxc", "bybit_spot", "gate", "binance", "kucoin", "huobi", "bingx"]

def SOURCE_EXCHANGES : List String :=
  ["mxc", "bybit_spot", "gate", "binance", "kucoin", "huobi", "bingx"]

def MIN_AGE_DAYS : Int := 7
def MAX_AGE_DAYS : Int := 90

def MIN_MCAP_USD : Int := 3000000
def MAX_MCAP_USD : Int := 1000000000
def MIN_VOLUME_USD : Int := 0

def ALLOWED_CHAINS : List String := ["ethereum", "bnb", "solana"]

def PLATFORM_TO_CHAIN : List (String × String) :=
  [("ethereum", "ethereum"), ("eth", "ethereum"),
   ("binance-smart-chain", "bnb"), ("bnb-smart-chain", "bnb"), ("bsc", "bnb"),
   ("solana", "solana")]

/-! Data model. -/

/-- One listing of a ticker on an exchange, as parsed from a ticker page.
`listing_date` counts days (a `datetime.date` shallow-embedded as `Int`). -/
structure ExchangeListing where
  exchange_slug : String
  listing_date : Int
deriving DecidableEq, Repr

/-- The `TickerCandidate` dataclass. -/
structure TickerCandidate where
  symbol : String
  ticker_url : String
  discovered_on : List String := []
  listings : List ExchangeListing := []
deriving DecidableEq, Repr

/-- `TickerCandidate.target_exchanges`: the set of target-exchange slugs
appearing among the candidate's listings (a Python set, modelled as a
deduplicated list). -/
def target_exchanges (c : TickerCandidate) : List String :=
  ((c.listings.map (·.exchange_slug)).filter (fun s => TARGET_EXCHANGES.contains s)).dedup

/-- `TickerCandidate.first_listing_date`: `None` when there are no
listings, otherwise the minimum listing date (`min(...)` as a fold). -/
def first_listing_date (c : TickerCandidate) : Option Int :=
  match c.listings.map (·.listing_date) with
  | [] => none
  | d :: ds => some (ds.foldl min d)

/-- `listing_age_ok`: is there at least one listing on a target exchange
whose age lies in `[MIN_AGE_DAYS, MAX_AGE_DAYS]`? -/
def listing_age_ok (c : TickerCandidate) (today : Int) : Bool :=
  c.listings.any fun l =>
    TARGET_EXCHANGES.contains l.exchange_slug &&
      (decide (MIN_AGE_DAYS ≤ today - l.listing_date) &&
       decide (today - l.listing_date ≤ MAX_AGE_DAYS))

/-- The candidate filter performed by `main` (steps 3 and 4): candidates
with no listings are dropped, then `listing_age_ok` must hold, then at
least two target exchanges are required. -/
def passes_filters (c : TickerCandidate) (today : Int) : Bool :=
  !c.listings.isEmpty && listing_age_ok c today &&
    decide (2 ≤ (target_exchanges c).length)

/-! Parsing of exchange pages (`fetch_exchange_candidates`).

A scraped table row is reduced to the only thing the code reads from it:
the optional ticker link, carrying its text and `href`.  The date cell is
not inspected by this parser at all. -/

/-- One `tr.item` row of an exchange page: the ticker link, if present. -/
structure ExRow where
  ticker_link : Option (String × String)
deriving DecidableEq, Repr

/-- `requests.compat.urljoin(BASE_URL, href)` for the site-relative hrefs
(`/en/ticker/...`) occurring here: concatenation onto the base. -/
def urljoin (base href : String) : String := base ++ href

/-- The per-row extraction inside `fetch_exchange_candidates`: rows
without a ticker link are skipped; the symbol is the stripped, uppercased
link text and the URL is joined onto the base. -/
def parseExchangeRows (rows : List ExRow) : List (String × String) :=
  rows.filterMap fun r =>
    match r.ticker_link with
    | none => none
    | some (text, href) => some (upperStr (stripStr text), urljoin BASE_URL href)

/-- The pagination loop of `fetch_exchange_candidates`: pages are fetched
in order; a failed fetch or missing table (`none`) or an empty row list
breaks the loop; otherwise the parsed rows are appended.  `fuel` is the
number of pages still allowed. -/
def fetchExchangeLoop (pages : Nat → Option (List ExRow)) :
    Nat → Nat → List (String × String) → List (String × String)
  | 0, _, acc => acc
  | fuel + 1, page, acc =>
      match pages page with
      | none => acc
      | some rows =>
          if rows.isEmpty then acc
          else fetchExchangeLoop pages fuel (page + 1) (acc ++ parseExchangeRows rows)

/-- `fetch_exchange_candidates` with its default `max_pages = 10`. -/
def fetch_exchange_candidates (pages : Nat → Option (List ExRow)) : List (String × String) :=
  fetchExchangeLoop pages 10 1 []

/-! Parsing of ticker pages (`fetch_ticker_details`).

A row is reduced to what the code extracts from it: the date parsed from
its own `td.date` cell (if parseable) and the exchange slug extracted
from its own exchange link (if present). -/

/-- One `tr.item` row of a ticker page. -/
structure TickerRow where
  listing_date : Option Int
  exch_slug : Option String
deriving DecidableEq, Repr

/-- The row loop of `fetch_ticker_details`: a row contributes a listing
exactly when it has both a parseable date and an exchange link; the slug
is lowercased.  Rows missing either are dropped (`continue`). -/
def fetchTickerListings : List TickerRow → List ExchangeListing
  | [] => []
  | r :: rest =>
      match r.listing_date, r.exch_slug with
      | some d, some s => ⟨lowerStr s, d⟩ :: fetchTickerListings rest
      | _, _ => fetchTickerListings rest

/-! Grouping of raw rows in `main` (step 2): rows `(symbol, url, source
exchange)` are grouped by ticker URL into `TickerCandidate`s held in an
insertion-ordered dict. -/

/-- `cand.discovered_on.add(exch)`: set insertion. -/
def addSrc (c : TickerCandidate) (exch : String) : TickerCandidate :=
  if exch ∈ c.discovered_on then c
  else { c with discovered_on := c.discovered_on ++ [exch] }

/-- One iteration of the grouping loop: look the URL up in the dict,
create the candidate on a miss, then add the source exchange. -/
def addRow : List TickerCandidate → String × String × String → List TickerCandidate
  | [], (sym, url, exch) =>
      [{ symbol := sym, ticker_url := url, discovered_on := [exch], listings := [] }]
  | c :: cs, (sym, url, exch) =>
      if c.ticker_url = url then addSrc c exch :: cs
      else c :: addRow cs (sym, url, exch)

/-- `candidates_by_url`: the grouping of all raw rows, in order. -/
def groupByUrl (rows : List (String × String × String)) : List TickerCandidate :=
  rows.foldl addRow []

/-! CoinGecko resolution (`find_token_on_coingecko` and helpers). -/

/-- One entry of the `search` response's `coins` array; absent JSON keys
are `none`. -/
structure SearchStub where
  id : Option String
  symbol : Option String
  name : Option String
  market_cap_rank : Option Int
deriving DecidableEq, Repr

/-- The parts of a `/coins/{id}` response the code reads.  `platforms` is
the platform-name-to-address dict (empty string models a null/empty
address); market cap and volume are the `usd` entries, `none` when
absent. -/
structure CoinData where
  symbol : Option String
  name : Option String
  platforms : List (String × String)
  market_cap : Option Int
  total_volume : Option Int
deriving DecidableEq, Repr

/-- The dict returned by `find_token_on_coingecko`. -/
structure CGInfo where
  symbol : String
  name : String
  coingecko_id : String
  chain : String
  address : String
  market_cap : Int
  volume_24h : Option Int
deriving DecidableEq, Repr

/-- The filtered candidate list inside `choose_chain_and_address`:
platforms with a non-empty address whose lowercased name maps to an
allowed chain. -/
def chainCandidates (platforms : List (String × String)) : List (String × String) :=
  platforms.filterMap fun p =>
    if p.2 = "" then none
    else
      match PLATFORM_TO_CHAIN.lookup (lowerStr p.1) with
      | some chain => if ALLOWED_CHAINS.contains chain then some (chain, p.2) else none
      | none => none

/-- The chain-priority loop of `choose_chain_and_address`: for each
priority chain in order, return the first candidate on that chain. -/
def priorityScan (priority : List String) (cands : List (String × String)) :
    Option (String × String) :=
  match priority with
  | [] => none
  | ch :: rest =>
      match cands.find? (fun p => p.1 == ch) with
      | some p => some p
      | none => priorityScan rest cands

/-- `choose_chain_and_address`. -/
def choose_chain_and_address (platforms : List (String × String)) :
    Option (String × String) :=
  if platforms.isEmpty then none
  else
    let priority := ["bnb", "ethereum", "solana"]
    let candidates := chainCandidates platforms
    if candidates.isEmpty then none
    else
      match priorityScan priority candidates with
      | some p => some p
      | none => candidates.head?

/-- The sort key of `find_token_on_coingecko`: `(-exact, rank_score)`
where `exact` marks a case-insensitive symbol match and a missing
market-cap rank scores 10000. -/
def stubScore (symbol : String) (item : SearchStub) : Int × Int :=
  let s := lowerStr (item.symbol.getD "")
  let exact : Int := if s = lowerStr symbol then 1 else 0
  let rank_score : Int :=
    match item.market_cap_rank with
    | none => 10000
    | some r => r
  (-exact, rank_score)

/-- Tuple `<=` on scores, the comparison underlying Python `sorted`. -/
def scoreLe (symbol : String) (a b : SearchStub) : Bool :=
  let sa := stubScore symbol a
  let sb := stubScore symbol b
  if sa.1 < sb.1 then true
  else if sb.1 < sa.1 then false
  else decide (sa.2 ≤ sb.2)

/-- `candidates_sorted`: the stable sort of the search stubs by score. -/
def sortStubs (symbol : String) (stubs : List SearchStub) : List SearchStub :=
  stubs.mergeSort (scoreLe symbol)

/-- Python `x or y` for an optional/possibly-empty string `x`: the
fallback is used when `x` is absent or empty. -/
def strOr (x : Option String) (y : String) : String :=
  match x with
  | none => y
  | some s => if s = "" then y else s

/-- The body of the stub loop: skip stubs without an id, failed coin
fetches, coins without an allowed chain address, coins without a market
cap or with one outside `[MIN_MCAP_USD, MAX_MCAP_USD]`, and coins whose
known volume is below `MIN_VOLUME_USD`; otherwise build the info dict. -/
def acceptStub (symbol : String) (getCoin : String → Option CoinData)
    (item : SearchStub) : Option CGInfo :=
  let coin_id := item.id.getD ""
  if coin_id = "" then none
  else
    match getCoin coin_id with
    | none => none
    | some coin =>
        match choose_chain_and_address coin.platforms with
        | none => none
        | some (chain, address) =>
            match coin.market_cap with
            | none => none
            | some mcap =>
                if ¬(MIN_MCAP_USD ≤ mcap ∧ mcap ≤ MAX_MCAP_USD) then none
                else if (match coin.total_volume with
                         | some vol => decide (vol < MIN_VOLUME_USD)
                         | none => false) then none
                else
                  some { symbol := upperStr (strOr coin.symbol symbol),
                         name := strOr coin.name (strOr item.name symbol),
                         coingecko_id := coin_id, chain := chain, address := address,
                         market_cap := mcap, volume_24h := coin.total_volume }

/-- First accepted result of a list, `none` when all are rejected:
the `for`-loop-with-`return` shape of `find_token_on_coingecko`. -/
def firstSome (f : SearchStub → Option CGInfo) : List SearchStub → Option CGInfo
  | [] => none
  | x :: xs =>
      match f x with
      | some r => some r
      | none => firstSome f xs

/-- `find_token_on_coingecko`: `search` is the (already fetched) list of
stubs for the symbol — empty both for "no results" and for a failed
search request — and `getCoin` is the per-id details fetch, `none` on
failure.  Stubs are examined in sorted order; the first accepted one is
returned. -/
def find_token_on_coingecko (symbol : String) (search : List SearchStub)
    (getCoin : String → Option CoinData) : Option CGInfo :=
  if search.isEmpty then none
  else firstSome (acceptStub symbol getCoin) (sortStubs symbol search)

/-! The persisted registry (`token_map.json`). -/

/-- A JSON value, as produced by `json.load`. -/
inductive JVal where
  | null
  | bool (b : Bool)
  | num (n : Int)
  | str (s : String)
  | arr (xs : List JVal)
  | obj (fields : List (String × JVal))

/-- Whether a JSON value is a list. -/
def JVal.isArr : JVal → Bool
  | .arr _ => true
  | _ => false

/-- `load_token_map`.  The backing file is modelled as
`Option (Option JVal)`: `none` when the file is absent, `some none` when
its content is not valid JSON (so `json.load` raises), `some (some j)`
when it parses to `j`.  An absent file yields the empty list; invalid
JSON and non-list JSON raise, modelled as `Except.error`. -/
def load_token_map : Option (Option JVal) → Except String (List JVal)
  | none => .ok []
  | some none => .error "json decode error"
  | some (some (.arr xs)) => .ok xs
  | some (some _) => .error "token_map.json must contain a list"

/-! Reconciliation into the registry (`main`, steps 5 and 6). -/

/-- One persisted registry entry, with the fields `main` reads and
writes; a missing or null field reads as `""` (the code's
`t.get(...) or ""`). -/
structure TokenEntry where
  symbol : String
  name : String
  chain : String
  address : String
  coingecko_id : String
  active : Bool
  listedon_first_listing_date : Option String
  listedon_exchanges : List String
  listedon_url : String
deriving DecidableEq, Repr

/-- A resolved token: the `find_token_on_coingecko` result together with
the candidate metadata that `main` folds into the new entry. -/
structure ResolvedToken where
  symbol : String
  name : String
  coingecko_id : String
  chain : String
  address : String
  first_date : Option String
  exchanges : List String
  url : String
deriving DecidableEq, Repr

/-- The `token_entry` dict built for a resolved token. -/
def entryOf (r : ResolvedToken) : TokenEntry :=
  { symbol := r.symbol, name := r.name, chain := r.chain, address := r.address,
    coingecko_id := r.coingecko_id, active := true,
    listedon_first_listing_date := r.first_date,
    listedon_exchanges := r.exchanges, listedon_url := r.url }

/-- The set `existing_ids` built from the loaded registry: lowercased,
non-empty `coingecko_id`s. -/
def buildIds : List TokenEntry → List String
  | [] => []
  | t :: ts =>
      let cid := lowerStr t.coingecko_id
      if cid ≠ "" then cid :: buildIds ts else buildIds ts

/-- The set `existing_chain_addr` built from the loaded registry:
lowercased `(chain, address)` pairs with both components non-empty. -/
def buildKeys : List TokenEntry → List (String × String)
  | [] => []
  | t :: ts =>
      let chain := lowerStr t.chain
      let addr := lowerStr t.address
      if chain ≠ "" ∧ addr ≠ "" then (chain, addr) :: buildKeys ts else buildKeys ts

/-- The mutable state of the reconciliation loop. -/
structure RState where
  tokens : List TokenEntry
  existing_ids : List String
  existing_chain_addr : List (String × String)
  added : List TokenEntry
deriving Repr

/-- The loop state right after loading: the loaded entries and the two
deduplication sets, nothing added yet. -/
def initState (tokens : List TokenEntry) : RState :=
  { tokens := tokens, existing_ids := buildIds tokens,
    existing_chain_addr := buildKeys tokens, added := [] }

/-- One iteration of the reconciliation loop (step 6): skip when the
lowercased id is known or the lowercased `(chain, address)` key is
known; otherwise append the new entry and record both keys. -/
def reconcileStep (st : RState) (r : ResolvedToken) : RState :=
  let cid := lowerStr r.coingecko_id
  let chain := lowerStr r.chain
  let addr := lowerStr r.address
  if cid ∈ st.existing_ids then st
  else if (chain, addr) ∈ st.existing_chain_addr then st
  else
    let e := entryOf r
    { tokens := st.tokens ++ [e],
      existing_ids := cid :: st.existing_ids,
      existing_chain_addr := (chain, addr) :: st.existing_chain_addr,
      added := st.added ++ [e] }

/-- The whole reconciliation pass over the resolved tokens. -/
def reconcile (existing : List TokenEntry) (resolved : List ResolvedToken) : RState :=
  resolved.foldl reconcileStep (initState existing)

/-- The identity key of a registry entry: `(chain, lowercased address)`. -/
def identityKey (e : TokenEntry) : String × String := (e.chain, lowerStr e.address)

end UTM

namespace SC

/-! Configuration constants of `scanner.py`. -/

def MIN_MCAP : Int := 1000000
def MAX_MCAP : Int := 1000000000

def MAX_PAGES : Nat := 20

def PLATFORM_TO_CHAIN : List (String × String) :=
  [("ethereum", "ethereum"), ("binance-smart-chain", "bnb"),
   ("bnb-smart-chain", "bnb"), ("bnb-chain", "bnb"), ("solana", "solana")]

def ALLOWED_CHAINS : List String := ["ethereum", "bnb", "solana"]

def TARGET_EXCHANGES : List String := ["binance", "gate", "kucoin", "mexc", "bybit", "htx"]

def EXCHANGE_MATCH_SUBSTRINGS : List (String × List String) :=
  [("binance", ["binance"]), ("gate", ["gate.io", "gate"]), ("kucoin", ["kucoin"]),
   ("mexc", ["mexc"]), ("bybit", ["bybit"]), ("htx", ["htx", "huobi"])]

/-! Data model. -/

/-- One coin object of a `/coins/markets` page; `market_cap` is `none`
when the field is absent, null or not numeric. -/
structure CoinMkt where
  id : String
  symbol : String
  name : String
  market_cap : Option Int
deriving DecidableEq, Repr

/-- A candidate kept by `fetch_markets_candidates`. -/
structure MCand where
  id : String
  symbol : String
  name : String
  market_cap : Int
deriving DecidableEq, Repr

/-- One `tickers` element of a coin-details response: the market's name
and identifier (`""` models an absent value, as `market.get(...) or ""`). -/
structure Ticker where
  market_name : String
  market_identifier : String
deriving DecidableEq, Repr

/-- The parts of a `/coins/{id}` response `scan_tokens` reads. -/
structure CoinDet where
  symbol : Option String
  name : Option String
  tickers : List Ticker
  platforms : List (String × String)
  asset_platform_id : Option String
  contract_address : Option String
deriving DecidableEq, Repr

/-- A token-map entry built by `make_token_entry`. -/
structure SEntry where
  symbol : String
  name : String
  chain : String
  address : String
  coingecko_id : String
  active : Bool
deriving DecidableEq, Repr

/-- `cg_request`: a non-200 response raises, otherwise the body is
returned.  The response is modelled as a status code and the parsed
body. -/
def cg_request {α : Type} (resp : Nat × α) : Except String α :=
  if resp.1 ≠ 200 then .error ("CoinGecko error " ++ toString resp.1)
  else .ok resp.2

/-- `normalize_symbol`. -/
def normalize_symbol (sym : String) : String := upperStr sym

/-- Substring test over character lists (Python `in` on strings). -/
def charsContain (hay sub : List Char) : Bool :=
  sub.isPrefixOf hay ||
    match hay with
    | [] => false
    | _ :: t => charsContain t sub

/-- Set insertion: append unless already present. -/
def insSet (l : List String) (x : String) : List String :=
  if x ∈ l then l else l ++ [x]

/-- `detect_exchanges_from_tickers`: collect every configured exchange
one of whose match substrings occurs in the lowercased market name or
identifier of some ticker. -/
def detect_exchanges_from_tickers (tickers : List Ticker) : List String :=
  tickers.foldl
    (fun present t =>
      let name_l := lowerStr t.market_name
      let ident_l := lowerStr t.market_identifier
      EXCHANGE_MATCH_SUBSTRINGS.foldl
        (fun pr exsubs =>
          if exsubs.2.any (fun s => charsContain name_l.data s.data ||
              charsContain ident_l.data s.data)
          then insSet pr exsubs.1 else pr)
        present)
    []

/-- The row scan of one markets page: coins without a numeric market cap
are skipped; a market cap below `MIN_MCAP` stops the whole pagination
(`stop`, the second component); market caps within
`[MIN_MCAP, MAX_MCAP]` become candidates. -/
def scanPage : List CoinMkt → List MCand × Bool
  | [] => ([], false)
  | coin :: rest =>
      match coin.market_cap with
      | none => scanPage rest
      | some mcap =>
          if mcap < MIN_MCAP then ([], true)
          else
            let (cs, stop) := scanPage rest
            (if MIN_MCAP ≤ mcap ∧ mcap ≤ MAX_MCAP then
              { id := coin.id, symbol := coin.symbol, name := coin.name,
                market_cap := mcap } :: cs
             else cs, stop)

/-- The pagination loop of `fetch_markets_candidates`: each page is a
`cg_request` over the page's response; an error propagates (there is no
`try` around it), an empty page or a `stop` from the row scan ends the
loop. -/
def fetchMarketsLoop (responses : Nat → Nat × List CoinMkt) :
    Nat → Nat → List MCand → Except String (List MCand)
  | 0, _, acc => .ok acc
  | fuel + 1, page, acc =>
      match cg_request (responses page) with
      | .error e => .error e
      | .ok data =>
          if data.isEmpty then .ok acc
          else
            let (cs, stop) := scanPage data
            if stop then .ok (acc ++ cs)
            else fetchMarketsLoop responses fuel (page + 1) (acc ++ cs)

/-- `fetch_markets_candidates`. -/
def fetch_markets_candidates (responses : Nat → Nat × List CoinMkt) :
    Except String (List MCand) :=
  fetchMarketsLoop responses MAX_PAGES 1 []

/-- `extract_platforms`: allowed-chain `(chain, address)` pairs from the
`platforms` dict, with a fallback to the top-level
`asset_platform_id`/`contract_address` pair when the dict yields
nothing. -/
def extract_platforms (coin : CoinDet) : List (String × String) :=
  let res := coin.platforms.filterMap fun p =>
    if p.2 = "" then none
    else
      match PLATFORM_TO_CHAIN.lookup p.1 with
      | none => none
      | some chain => if ALLOWED_CHAINS.contains chain then some (chain, p.2) else none
  if res.isEmpty then
    match coin.asset_platform_id, coin.contract_address with
    | some platform_name, some addr =>
        if platform_name = "" ∨ addr = "" then []
        else
          match PLATFORM_TO_CHAIN.lookup platform_name with
          | some chain => if ALLOWED_CHAINS.contains chain then [(chain, addr)] else []
          | none => []
    | _, _ => []
  else res

/-- `make_token_entry`. -/
def make_token_entry (symbol name chain address coingecko_id : String)
    (active : Bool) : SEntry :=
  { symbol := normalize_symbol symbol, name := name, chain := chain,
    address := address, coingecko_id := coingecko_id, active := active }

/-- `tokens_by_key`: an insertion-ordered dict from `(chain, lowercased
address)` to an entry paired with its `_market_cap`. -/
abbrev TokensByKey := List ((String × String) × (SEntry × Int))

/-- Dict update with the duplicate policy of `scan_tokens`: on a key hit
keep the entry with the larger market cap (in place), otherwise append. -/
def updKey (d : TokensByKey) (key : String × String) (v : SEntry × Int) : TokensByKey :=
  match d with
  | [] => [(key, v)]
  | (k, w) :: rest =>
      if k = key then (if w.2 < v.2 then (k, v) :: rest else (k, w) :: rest)
      else (k, w) :: updKey rest key v

/-- The per-platform inner loop of `scan_tokens`. -/
def addPlatforms (d : TokensByKey) (platforms : List (String × String))
    (symbol name coin_id : String) (mcap : Int) : TokensByKey :=
  platforms.foldl
    (fun d p =>
      updKey d (p.1, lowerStr p.2) (make_token_entry symbol name p.1 p.2 coin_id true, mcap))
    d

/-- The candidate loop of `scan_tokens`: a failed details fetch is
caught and skipped; coins with fewer than 3 detected target exchanges or
no extracted platforms are skipped; otherwise every platform pair is
folded into the dict. -/
def processCands (details : String → Option CoinDet) :
    List MCand → TokensByKey → TokensByKey
  | [], d => d
  | c :: rest, d =>
      match details c.id with
      | none => processCands details rest d
      | some coin =>
          let ex_set := detect_exchanges_from_tickers coin.tickers
          if ((ex_set.filter (fun e => TARGET_EXCHANGES.contains e)).dedup).length < 3 then
            processCands details rest d
          else
            let platforms := extract_platforms coin
            if platforms.isEmpty then processCands details rest d
            else
              processCands details rest
                (addPlatforms d platforms (coin.symbol.getD "") (coin.name.getD "")
                  c.id c.market_cap)

/-- The sort comparison of `scan_tokens`: the `(symbol, chain)` tuple
key under Python tuple/string comparison. -/
def entryKeyLe (a b : SEntry) : Bool :=
  strPairLe (a.symbol, a.chain) (b.symbol, b.chain)

/-- `scan_tokens`: fetch market candidates (propagating any page
error), process them into the dict, strip the market caps and sort the
values by `(symbol, chain)`. -/
def scan_tokens (responses : Nat → Nat × List CoinMkt)
    (details : String → Option CoinDet) : Except String (List SEntry) :=
  match fetch_markets_candidates responses with
  | .error e => .error e
  | .ok candidates =>
      let d := processCands details candidates []
      let result := d.map (fun kv => kv.2.1)
      .ok (result.mergeSort entryKeyLe)

end SC



/-! Definitions following the spec's words, for comparison with the
definitions above that follow the source. -/

/-- Eligibility predicate following claim C3's wording: the candidate's
first listing date must be between `MIN_AGE_DAYS` and `MAX_AGE_DAYS`
days old and the candidate's exchange set must have at least two
elements. -/
def claimC3Eligible (c : UTM.TickerCandidate) (today : Int) : Bool :=
  match UTM.first_listing_date c with
  | none => false
  | some f =>
      decide (UTM.MIN_AGE_DAYS ≤ today - f) && decide (today - f ≤ UTM.MAX_AGE_DAYS) &&
        decide (2 ≤ ((c.listings.map (·.exchange_slug)).dedup).length)

/-- Number of groups that grouping raw rows by uppercased symbol (claim
C4's wording) would produce. -/
def claimC4SymbolGroups (rows : List (String × String × String)) : Nat :=
  ((rows.map (fun r => upperStr r.1)).dedup).length

/-- An input row in claim C9's wording: either a date-header row or a
ticker row. -/
inductive SpecRow where
  | dateHeader (d : Int)
  | tickerRow (label : String)
deriving DecidableEq, Repr

/-- The carry-forward parser described by the spec: a date header sets
the current date, which is applied to subsequent ticker rows until the
next header; ticker rows before any header are dropped. -/
def specCarryForwardGo (cur : Option Int) : List SpecRow → List (String × Int)
  | [] => []
  | .dateHeader d :: rest => specCarryForwardGo (some d) rest
  | .tickerRow s :: rest =>
      match cur with
      | some d => (s, d) :: specCarryForwardGo cur rest
      | none => specCarryForwardGo none rest

/-- The carry-forward parse of a row sequence, per the spec's words. -/
def specCarryForwardParse (rows : List SpecRow) : List (String × Int) :=
  specCarryForwardGo none rows

/-- Claim C9's input rows rendered in the shape the code's ticker-page
row loop actually consumes: a date-header row carries a date cell but no
exchange link; a ticker row carries a link but no date cell of its own. -/
def specRowToTickerRow : SpecRow → UTM.TickerRow
  | .dateHeader d => { listing_date := some d, exch_slug := none }
  | .tickerRow s => { listing_date := none, exch_slug := some s }

/-! Theorems. -/

/-- A string lowercases to the empty string only if it is empty. -/
theorem lowerStr_eq_empty_iff (s : String) : lowerStr s = "" ↔ s = "" := by
  constructor
  · intro h
    have hdata : s.data.map Char.toLower = ([] : List Char) := congrArg String.data h
    exact String.ext (List.map_eq_nil_iff.mp hdata)
  · intro h; subst h; rfl

/-- Lowercasing a non-empty string gives a non-empty string. -/
theorem lowerStr_ne_empty {s : String} (h : s ≠ "") : lowerStr s ≠ "" :=
  fun hc => h ((lowerStr_eq_empty_iff s).mp hc)

/-- C3 (corrected), counterexample: the code's filter and the claimed
filter disagree.  First input: the earliest listing is 200 days old
(claim rejects) yet a target listing aged 50 days makes the code
accept.  Second input: the earliest listing is 60 days old and two
distinct exchanges appear (claim accepts) but only one of them is a
target exchange, so the code rejects. -/
theorem claim_C3_counterexample :
    (UTM.passes_filters ⟨"FOO", "u", [], [⟨"binance", 800⟩, ⟨"gate", 950⟩]⟩ 1000 = true ∧
      claimC3Eligible ⟨"FOO", "u", [], [⟨"binance", 800⟩, ⟨"gate", 950⟩]⟩ 1000 = false) ∧
    (UTM.passes_filters ⟨"BAR", "u2", [], [⟨"gate", 940⟩, ⟨"weirdex", 945⟩]⟩ 1000 = false ∧
      claimC3Eligible ⟨"BAR", "u2", [], [⟨"gate", 940⟩, ⟨"weirdex", 945⟩]⟩ 1000 = true) := by
  decide

/-- C3 (amended): the code's eligibility filter passes a candidate iff
some single listing on a target exchange has age within
`[MIN_AGE_DAYS, MAX_AGE_DAYS]` (both bounds inclusive; a future-dated
listing has negative age and fails the lower bound rather than
crashing), and at least two distinct target exchanges occur among the
candidate's listings. -/
theorem claim_C3_filter (c : UTM.TickerCandidate) (today : Int) :
    UTM.passes_filters c today = true ↔
      (∃ l ∈ c.listings, l.exchange_slug ∈ UTM.TARGET_EXCHANGES ∧
          UTM.MIN_AGE_DAYS ≤ today - l.listing_date ∧
          today - l.listing_date ≤ UTM.MAX_AGE_DAYS) ∧
        2 ≤ (UTM.target_exchanges c).length := by
  simp only [UTM.passes_filters, UTM.listing_age_ok, Bool.and_eq_true, List.any_eq_true,
    Bool.not_eq_true', List.isEmpty_eq_false, decide_eq_true_eq, List.elem_iff]
  constructor
  · rintro ⟨⟨-, l, hl, hmem, h₁, h₂⟩, hlen⟩
    exact ⟨⟨l, hl, hmem, h₁, h₂⟩, hlen⟩
  · rintro ⟨⟨l, hl, hmem, h₁, h₂⟩, hlen⟩
    exact ⟨⟨List.ne_nil_of_mem hl, l, hl, hmem, h₁, h₂⟩, hlen⟩

/-- C5: loading the registry returns the empty list when the file is
absent, and errors out (so the run aborts before any persist) when the
content is not valid JSON or is valid JSON that is not a list. -/
theorem claim_C5_load (j : UTM.JVal) (h : j.isArr = false) :
    UTM.load_token_map none = .ok [] ∧
    (UTM.load_token_map (some (some j))).isOk = false ∧
    (UTM.load_token_map (some none)).isOk = false := by
  refine ⟨rfl, ?_, rfl⟩
  cases j
  case arr xs => simp [UTM.JVal.isArr] at h
  all_goals rfl

/-- C5 witness: a JSON object is not a list, and loading it fails. -/
theorem claim_C5_load_witness :
    UTM.load_token_map none = .ok [] ∧
    (UTM.load_token_map (some (some (UTM.JVal.obj [])))).isOk = false ∧
    (UTM.load_token_map (some none)).isOk = false :=
  claim_C5_load (UTM.JVal.obj []) rfl

/-- C9 (corrected), counterexample: the spec's carry-forward parse of
claim C9's five rows yields the three claimed listings, but the code's
ticker-page row loop — the only listing parser that reads dates — drops
every one of those rows (a header row has no exchange link, a ticker row
has no date cell of its own), yielding no listings at all. -/
theorem claim_C9_counterexample :
    specCarryForwardParse
        [.dateHeader 900, .tickerRow "AAA", .tickerRow "BBB",
         .dateHeader 899, .tickerRow "CCC"]
      = [("AAA", 900), ("BBB", 900), ("CCC", 899)] ∧
    UTM.fetchTickerListings
        ([.dateHeader 900, .tickerRow "AAA", .tickerRow "BBB",
          .dateHeader 899, .tickerRow "CCC"].map specRowToTickerRow)
      = [] := by
  constructor <;> rfl

/-- C9 (amended): the code's listing parsing carries no state across
rows.  The ticker-page row loop is a list homomorphism (splitting the
row sequence splits the output), and every produced listing takes its
date and exchange slug from a single row that carries both itself. -/
theorem claim_C9_row_local :
    (∀ xs ys : List UTM.TickerRow,
        UTM.fetchTickerListings (xs ++ ys)
          = UTM.fetchTickerListings xs ++ UTM.fetchTickerListings ys) ∧
    (∀ (rows : List UTM.TickerRow) (l : UTM.ExchangeListing),
        l ∈ UTM.fetchTickerListings rows →
          ∃ r ∈ rows, r.listing_date = some l.listing_date ∧
            ∃ s, r.exch_slug = some s ∧ l.exchange_slug = lowerStr s) := by
  constructor
  · intro xs ys
    induction xs with
    | nil => simp [UTM.fetchTickerListings]
    | cons r rest ih =>
        cases hd : r.listing_date <;> cases hs : r.exch_slug <;>
          simp [UTM.fetchTickerListings, hd, hs, ih]
  · intro rows l hmem
    induction rows with
    | nil => simp [UTM.fetchTickerListings] at hmem
    | cons r rest ih =>
        cases hd : r.listing_date <;> cases hs : r.exch_slug <;>
          rw [UTM.fetchTickerListings, hd, hs] at hmem
        case some.some d s =>
          rcases List.mem_cons.mp hmem with heq | htail
          · exact ⟨r, List.mem_cons_self r rest, by rw [hd, heq], s, hs, by rw [heq]⟩
          · obtain ⟨r', hr', hprop⟩ := ih htail
            exact ⟨r', List.mem_cons_of_mem r hr', hprop⟩
        all_goals
          obtain ⟨r', hr', hprop⟩ := ih hmem
          exact ⟨r', List.mem_cons_of_mem r hr', hprop⟩

/-- C9 witness: a single self-contained row (own date, own exchange
link) produces a listing whose fields come from that row. -/
theorem claim_C9_row_local_witness :
    ∃ r ∈ ([⟨some 5, some "GaTe"⟩] : List UTM.TickerRow),
      r.listing_date = some 5 ∧
        ∃ s, r.exch_slug = some s ∧ ("gate" : String) = lowerStr s :=
  claim_C9_row_local.2 [⟨some 5, some "GaTe"⟩] ⟨"gate", 5⟩ (by decide)

/-- Every chain the platform map can produce is one of the three
priority chains. -/
theorem platform_chain_mem (k v : String)
    (h : UTM.PLATFORM_TO_CHAIN.lookup k = some v) :
    v ∈ (["bnb", "ethereum", "solana"] : List String) := by
  simp only [UTM.PLATFORM_TO_CHAIN, List.lookup] at h
  repeat' split at h
  all_goals simp_all

/-- Every filtered candidate inside `choose_chain_and_address` sits on
one of the three priority chains. -/
theorem chainCandidates_chain_mem (platforms : List (String × String))
    (c : String × String) (h : c ∈ UTM.chainCandidates platforms) :
    c.1 ∈ (["bnb", "ethereum", "solana"] : List String) := by
  unfold UTM.chainCandidates at h
  obtain ⟨p, -, hp⟩ := List.mem_filterMap.mp h
  split at hp
  · exact absurd hp (by simp)
  · split at hp
    · rename_i chain heq
      split at hp
      · have hc : (chain, p.2) = c := Option.some.inj hp
        have hc1 : c.1 = chain := by rw [← hc]
        rw [hc1]
        exact platform_chain_mem _ _ heq
      · exact absurd hp (by simp)
    · exact absurd hp (by simp)

/-- The priority loop finds a pair whenever some candidate's chain
occurs in the priority list. -/
theorem priorityScan_finds (pri : List String) (cands : List (String × String))
    (h : ∃ c ∈ cands, c.1 ∈ pri) :
    ∃ p, UTM.priorityScan pri cands = some p := by
  induction pri with
  | nil => obtain ⟨c, -, hc⟩ := h; simp at hc
  | cons ch rest ih =>
      cases hfind : cands.find? (fun p => p.1 == ch) with
      | some p => exact ⟨p, by simp [UTM.priorityScan, hfind]⟩
      | none =>
          obtain ⟨c, hcmem, hc⟩ := h
          have hne : c.1 ≠ ch := by
            have := List.find?_eq_none.mp hfind c hcmem
            simpa using this
          have hcrest : c.1 ∈ rest := by
            rcases List.mem_cons.mp hc with h1 | h1
            · exact absurd h1 hne
            · exact h1
          obtain ⟨p, hp⟩ := ih ⟨c, hcmem, hcrest⟩
          exact ⟨p, by simp [UTM.priorityScan, hfind, hp]⟩

/-- C10: whenever the filtered candidate list in
`choose_chain_and_address` is non-empty, the chain-priority loop already
returns a pair, so the final `return candidates[0]` fallback is
unreachable and the function's result is the loop's result. -/
theorem claim_C10_fallback_unreachable (platforms : List (String × String))
    (h : UTM.chainCandidates platforms ≠ []) :
    ∃ p, UTM.priorityScan ["bnb", "ethereum", "solana"]
          (UTM.chainCandidates platforms) = some p ∧
        UTM.choose_chain_and_address platforms = some p := by
  have hplat : platforms ≠ [] := by
    intro hnil
    apply h
    rw [hnil]
    rfl
  obtain ⟨c, hcmem⟩ := List.exists_mem_of_ne_nil _ h
  have hchain := chainCandidates_chain_mem platforms c hcmem
  obtain ⟨p, hp⟩ := priorityScan_finds _ _ ⟨c, hcmem, hchain⟩
  refine ⟨p, hp, ?_⟩
  have h1 : platforms.isEmpty = false := by simpa [List.isEmpty_iff] using hplat
  have h2 : (UTM.chainCandidates platforms).isEmpty = false := by
    simpa [List.isEmpty_iff] using h
  simp [UTM.choose_chain_and_address, h1, h2, hp]

/-- C10 witness: one platform entry on Ethereum exercises the theorem. -/
theorem claim_C10_witness :
    ∃ p, UTM.priorityScan ["bnb", "ethereum", "solana"]
          (UTM.chainCandidates [("Ethereum", "0xabc")]) = some p ∧
        UTM.choose_chain_and_address [("Ethereum", "0xabc")] = some p :=
  claim_C10_fallback_unreachable [("Ethereum", "0xabc")] (by decide)

/-- Adding a source exchange does not change the candidate's URL. -/
theorem addSrc_url (c : UTM.TickerCandidate) (x : String) :
    (UTM.addSrc c x).ticker_url = c.ticker_url := by
  unfold UTM.addSrc; split <;> rfl

/-- Membership in the discovered-on set after a set insertion. -/
theorem addSrc_disc_mem (c : UTM.TickerCandidate) (x e : String) :
    e ∈ (UTM.addSrc c x).discovered_on ↔ e ∈ c.discovered_on ∨ e = x := by
  unfold UTM.addSrc
  split
  · rename_i hx
    constructor
    · exact Or.inl
    · rintro (h | rfl)
      · exact h
      · exact hx
  · simp [List.mem_append]

/-- URL list of the dict after one grouping step. -/
theorem addRow_urls (cs : List UTM.TickerCandidate) (sym url exch : String) :
    (UTM.addRow cs (sym, url, exch)).map (·.ticker_url)
      = if url ∈ cs.map (·.ticker_url) then cs.map (·.ticker_url)
        else cs.map (·.ticker_url) ++ [url] := by
  induction cs with
  | nil => simp [UTM.addRow]
  | cons c cs ih =>
      by_cases hc : c.ticker_url = url
      · simp [UTM.addRow, hc, addSrc_url]
      · by_cases hm : url ∈ cs.map (·.ticker_url) <;>
          simp [UTM.addRow, hc, ih, hm, Ne.symm hc]

/-- URL membership after one grouping step. -/
theorem addRow_url_mem (cs : List UTM.TickerCandidate) (sym url exch u : String) :
    u ∈ (UTM.addRow cs (sym, url, exch)).map (·.ticker_url) ↔
      u ∈ cs.map (·.ticker_url) ∨ u = url := by
  rw [addRow_urls]
  split
  · rename_i hm
    constructor
    · exact Or.inl
    · rintro (h | rfl)
      · exact h
      · exact hm
  · simp [List.mem_append]

/-- One grouping step preserves distinctness of the dict's URLs. -/
theorem addRow_nodup (cs : List UTM.TickerCandidate) (sym url exch : String)
    (h : (cs.map (·.ticker_url)).Nodup) :
    ((UTM.addRow cs (sym, url, exch)).map (·.ticker_url)).Nodup := by
  rw [addRow_urls]
  split
  · exact h
  · rename_i hm
    rw [List.nodup_append]
    exact ⟨h, List.nodup_singleton url, List.disjoint_singleton.mpr hm⟩

/-- Discovered-on membership across one grouping step: an exchange is
attached to URL `u` afterwards iff it was attached before, or the new
row carries exactly it for `u`. -/
theorem addRow_disc_mem (cs : List UTM.TickerCandidate) (sym url exch u e : String)
    (hnd : (cs.map (·.ticker_url)).Nodup) :
    (∃ c ∈ UTM.addRow cs (sym, url, exch), c.ticker_url = u ∧ e ∈ c.discovered_on) ↔
      (∃ c ∈ cs, c.ticker_url = u ∧ e ∈ c.discovered_on) ∨ (u = url ∧ e = exch) := by
  induction cs with
  | nil =>
      simp only [UTM.addRow, List.mem_singleton, List.not_mem_nil]
      constructor
      · rintro ⟨c, rfl, hu, he⟩
        simp at he
        exact Or.inr ⟨hu.symm, he⟩
      · rintro (⟨c, hc, -⟩ | ⟨rfl, rfl⟩)
        · simp at hc
        · exact ⟨_, rfl, rfl, by simp⟩
  | cons c cs ih =>
      have hnd' : (cs.map (·.ticker_url)).Nodup := (List.nodup_cons.mp hnd).2
      have hhead : c.ticker_url ∉ cs.map (·.ticker_url) := (List.nodup_cons.mp hnd).1
      by_cases hc : c.ticker_url = url
      · simp only [UTM.addRow, hc, if_true]
        constructor
        · rintro ⟨c', hc', hu, he⟩
          rcases List.mem_cons.mp hc' with rfl | hmem
          · rw [addSrc_url] at hu
            rcases (addSrc_disc_mem c exch e).mp he with h1 | rfl
            · exact Or.inl ⟨c, List.mem_cons_self c cs, hu, h1⟩
            · exact Or.inr ⟨hu.symm.trans hc, rfl⟩
          · exact Or.inl ⟨c', List.mem_cons_of_mem c hmem, hu, he⟩
        · rintro (⟨c', hc', hu, he⟩ | ⟨h1, h2⟩)
          · rcases List.mem_cons.mp hc' with rfl | hmem
            · exact ⟨UTM.addSrc c' exch, List.mem_cons_self _ _, by rw [addSrc_url]; exact hu,
                (addSrc_disc_mem c' exch e).mpr (Or.inl he)⟩
            · exact ⟨c', List.mem_cons_of_mem _ hmem, hu, he⟩
          · subst h1
            subst h2
            exact ⟨UTM.addSrc c e, List.mem_cons_self _ _, by rw [addSrc_url]; exact hc,
              (addSrc_disc_mem c e e).mpr (Or.inr rfl)⟩
      · simp only [UTM.addRow, hc, if_false]
        constructor
        · rintro ⟨c', hc', hu, he⟩
          rcases List.mem_cons.mp hc' with rfl | hmem
          · exact Or.inl ⟨c', List.mem_cons_self _ _, hu, he⟩
          · rcases (ih hnd').mp ⟨c', hmem, hu, he⟩ with ⟨c'', hms, hprop⟩ | hright
            · exact Or.inl ⟨c'', List.mem_cons_of_mem _ hms, hprop⟩
            · exact Or.inr hright
        · rintro (⟨c', hc', hu, he⟩ | hright)
          · rcases List.mem_cons.mp hc' with rfl | hmem
            · exact ⟨c', List.mem_cons_self _ _, hu, he⟩
            · rcases (ih hnd').mpr (Or.inl ⟨c', hmem, hu, he⟩) with ⟨c'', hms, hprop⟩
              exact ⟨c'', List.mem_cons_of_mem _ hms, hprop⟩
          · rcases (ih hnd').mpr (Or.inr hright) with ⟨c'', hms, hprop⟩
            exact ⟨c'', List.mem_cons_of_mem _ hms, hprop⟩

/-- URL membership across the whole grouping fold. -/
theorem groupFold_url_mem (rows : List (String × String × String)) :
    ∀ (acc : List UTM.TickerCandidate) (u : String),
      u ∈ (rows.foldl UTM.addRow acc).map (·.ticker_url) ↔
        u ∈ acc.map (·.ticker_url) ∨ ∃ r ∈ rows, r.2.1 = u := by
  induction rows with
  | nil => intro acc u; simp
  | cons r rows ih =>
      intro acc u
      obtain ⟨sym, url, exch⟩ := r
      rw [List.foldl_cons, ih, addRow_url_mem, List.exists_mem_cons_iff]
      constructor
      · rintro ((h | rfl) | h)
        · exact Or.inl h
        · exact Or.inr (Or.inl rfl)
        · exact Or.inr (Or.inr h)
      · rintro (h | (h | h))
        · exact Or.inl (Or.inl h)
        · exact Or.inl (Or.inr h.symm)
        · exact Or.inr h

/-- The grouping fold keeps the dict's URLs distinct. -/
theorem groupFold_nodup (rows : List (String × String × String)) :
    ∀ acc : List UTM.TickerCandidate, (acc.map (·.ticker_url)).Nodup →
      ((rows.foldl UTM.addRow acc).map (·.ticker_url)).Nodup := by
  induction rows with
  | nil => intro acc h; simpa
  | cons r rows ih =>
      intro acc h
      obtain ⟨sym, url, exch⟩ := r
      rw [List.foldl_cons]
      exact ih _ (addRow_nodup _ _ _ _ h)

/-- Discovered-on membership across the whole grouping fold. -/
theorem groupFold_disc_mem (rows : List (String × String × String)) :
    ∀ (acc : List UTM.TickerCandidate) (u e : String), (acc.map (·.ticker_url)).Nodup →
      ((∃ c ∈ rows.foldl UTM.addRow acc, c.ticker_url = u ∧ e ∈ c.discovered_on) ↔
        (∃ c ∈ acc, c.ticker_url = u ∧ e ∈ c.discovered_on) ∨
          ∃ r ∈ rows, r.2.1 = u ∧ r.2.2 = e) := by
  induction rows with
  | nil => intro acc u e h; simp
  | cons r rows ih =>
      intro acc u e h
      obtain ⟨sym, url, exch⟩ := r
      rw [List.foldl_cons, ih _ u e (addRow_nodup _ _ _ _ h),
        addRow_disc_mem _ _ _ _ _ _ h, List.exists_mem_cons_iff]
      constructor
      · rintro ((h1 | h1) | h1)
        · exact Or.inl h1
        · exact Or.inr (Or.inl ⟨h1.1.symm, h1.2.symm⟩)
        · exact Or.inr (Or.inr h1)
      · rintro (h1 | (h1 | h1))
        · exact Or.inl (Or.inl h1)
        · exact Or.inl (Or.inr ⟨h1.1.symm, h1.2.symm⟩)
        · exact Or.inr h1

/-- A fold of `min` lands on a member of the list it folds over. -/
theorem foldl_min_mem (d : Int) (ds : List Int) : ds.foldl min d ∈ d :: ds := by
  induction ds generalizing d with
  | nil => simp
  | cons e ds ih =>
      rw [List.foldl_cons]
      rcases List.mem_cons.mp (ih (min d e)) with h | h
      · rcases min_choice d e with h2 | h2 <;> rw [h, h2]
        · exact List.mem_cons_self _ _
        · exact List.mem_cons_of_mem _ (List.mem_cons_self _ _)
      · exact List.mem_cons_of_mem _ (List.mem_cons_of_mem _ h)

/-- A fold of `min` bounds every element of the list it folds over. -/
theorem foldl_min_le (d : Int) (ds : List Int) : ∀ x ∈ d :: ds, ds.foldl min d ≤ x := by
  induction ds generalizing d with
  | nil =>
      intro x hx
      rw [List.mem_singleton.mp hx]
      exact le_refl d
  | cons e ds ih =>
      intro x hx
      rw [List.foldl_cons]
      rcases List.mem_cons.mp hx with h1 | hx'
      · rw [h1]
        exact le_trans (ih (min d e) _ (List.mem_cons_self _ _)) (min_le_left d e)
      · rcases List.mem_cons.mp hx' with h2 | hx''
        · rw [h2]
          exact le_trans (ih (min d e) _ (List.mem_cons_self _ _)) (min_le_right d e)
        · exact ih (min d e) x (List.mem_cons_of_mem _ hx'')

/-- `first_listing_date` returns exactly the minimum listing date. -/
theorem first_listing_date_min (c : UTM.TickerCandidate) (m : Int) :
    UTM.first_listing_date c = some m ↔
      m ∈ c.listings.map (·.listing_date) ∧
        ∀ x ∈ c.listings.map (·.listing_date), m ≤ x := by
  unfold UTM.first_listing_date
  cases hds : c.listings.map (·.listing_date) with
  | nil => simp
  | cons d ds =>
      simp only [Option.some.injEq]
      constructor
      · rintro rfl
        exact ⟨foldl_min_mem d ds, foldl_min_le d ds⟩
      · rintro ⟨hmem, hle⟩
        exact le_antisymm (foldl_min_le d ds m hmem) (hle _ (foldl_min_mem d ds))

/-- C4 (corrected), counterexample: two raw rows with the same (already
uppercased) symbol but different ticker URLs produce two candidates; the
claimed grouping by uppercased symbol would produce one. -/
theorem claim_C4_counterexample :
    (UTM.groupByUrl [("XYZ", "u1", "mxc"), ("XYZ", "u2", "gate")]).length = 2 ∧
    claimC4SymbolGroups [("XYZ", "u1", "mxc"), ("XYZ", "u2", "gate")] = 1 := by
  decide

/-- C4 (amended): the aggregation is pure and groups raw rows by ticker
URL — one candidate per distinct URL, no two candidates sharing a URL,
each candidate's discovered-on set being exactly the source exchanges of
the rows carrying its URL — and `first_listing_date` is the minimum
listing date over a candidate's listings. -/
theorem claim_C4_grouping :
    (∀ (rows : List (String × String × String)) (u : String),
        (∃ c ∈ UTM.groupByUrl rows, c.ticker_url = u) ↔ ∃ r ∈ rows, r.2.1 = u) ∧
    (∀ rows : List (String × String × String),
        ((UTM.groupByUrl rows).map (·.ticker_url)).Nodup) ∧
    (∀ (rows : List (String × String × String)) (u e : String),
        (∃ c ∈ UTM.groupByUrl rows, c.ticker_url = u ∧ e ∈ c.discovered_on) ↔
          ∃ r ∈ rows, r.2.1 = u ∧ r.2.2 = e) ∧
    (∀ (c : UTM.TickerCandidate) (m : Int),
        UTM.first_listing_date c = some m ↔
          m ∈ c.listings.map (·.listing_date) ∧
            ∀ x ∈ c.listings.map (·.listing_date), m ≤ x) := by
  refine ⟨?_, ?_, ?_, first_listing_date_min⟩
  · intro rows u
    rw [← List.mem_map]
    unfold UTM.groupByUrl
    rw [groupFold_url_mem rows [] u]
    simp
  · intro rows
    exact groupFold_nodup rows [] (by simp)
  · intro rows u e
    unfold UTM.groupByUrl
    rw [groupFold_disc_mem rows [] u e (by simp)]
    simp

/-- The stub comparison is the lexicographic order on scores. -/
theorem scoreLe_iff (s : String) (a b : UTM.SearchStub) :
    UTM.scoreLe s a b = true ↔
      (UTM.stubScore s a).1 < (UTM.stubScore s b).1 ∨
        ((UTM.stubScore s a).1 = (UTM.stubScore s b).1 ∧
          (UTM.stubScore s a).2 ≤ (UTM.stubScore s b).2) := by
  simp only [UTM.scoreLe]
  split_ifs with h1 h2
  · exact iff_of_true rfl (Or.inl h1)
  · constructor
    · intro h; simp at h
    · intro h; exfalso; omega
  · rw [decide_eq_true_eq]
    constructor
    · intro h; exact Or.inr ⟨by omega, h⟩
    · rintro (h | ⟨-, h⟩)
      · omega
      · exact h

/-- The stub comparison is total. -/
theorem scoreLe_total (s : String) (a b : UTM.SearchStub) :
    (UTM.scoreLe s a b || UTM.scoreLe s b a) = true := by
  rw [Bool.or_eq_true, scoreLe_iff, scoreLe_iff]
  omega

/-- The stub comparison is transitive. -/
theorem scoreLe_trans (s : String) (a b c : UTM.SearchStub)
    (hab : UTM.scoreLe s a b = true) (hbc : UTM.scoreLe s b c = true) :
    UTM.scoreLe s a c = true := by
  rw [scoreLe_iff] at hab hbc ⊢
  omega

/-- A first-match loop returns `some r` exactly when the examined list
splits into a rejected prefix, an element accepted as `r`, and an
unexamined suffix. -/
theorem firstSome_eq_some_iff (f : UTM.SearchStub → Option UTM.CGInfo)
    (l : List UTM.SearchStub) (r : UTM.CGInfo) :
    UTM.firstSome f l = some r ↔
      ∃ l₁ s l₂, l = l₁ ++ s :: l₂ ∧ (∀ t ∈ l₁, f t = none) ∧ f s = some r := by
  induction l with
  | nil =>
      constructor
      · intro h; exact absurd h (by simp [UTM.firstSome])
      · rintro ⟨l₁, s, l₂, hl, -, -⟩
        simp at hl
  | cons x xs ih =>
      cases hfx : f x with
      | some r' =>
          simp only [UTM.firstSome, hfx]
          constructor
          · intro h
            exact ⟨[], x, xs, rfl, by simp, by rw [hfx]; exact h⟩
          · rintro ⟨l₁, s, l₂, hl, hnone, hs⟩
            cases l₁ with
            | nil =>
                simp only [List.nil_append, List.cons.injEq] at hl
                rw [← hl.1] at hs
                rw [hfx] at hs
                exact hs
            | cons y l₁' =>
                rw [List.cons_append, List.cons.injEq] at hl
                have hy : f y = none := hnone y (List.mem_cons_self _ _)
                rw [← hl.1] at hy
                rw [hfx] at hy
                cases hy
      | none =>
          simp only [UTM.firstSome, hfx]
          rw [ih]
          constructor
          · rintro ⟨l₁, s, l₂, hl, hnone, hs⟩
            refine ⟨x :: l₁, s, l₂, by rw [List.cons_append, hl], ?_, hs⟩
            intro t ht
            rcases List.mem_cons.mp ht with h | h
            · rw [h]; exact hfx
            · exact hnone t h
          · rintro ⟨l₁, s, l₂, hl, hnone, hs⟩
            cases l₁ with
            | nil =>
                simp only [List.nil_append, List.cons.injEq] at hl
                rw [← hl.1] at hs
                rw [hfx] at hs
                cases hs
            | cons y l₁' =>
                rw [List.cons_append, List.cons.injEq] at hl
                exact ⟨l₁', s, l₂, hl.2,
                  fun t ht => hnone t (List.mem_cons_of_mem _ ht), hs⟩

/-- The resolver is the first-match loop over the sorted stubs. -/
theorem find_token_eq (symbol : String) (stubs : List UTM.SearchStub)
    (getCoin : String → Option UTM.CoinData) :
    UTM.find_token_on_coingecko symbol stubs getCoin
      = UTM.firstSome (UTM.acceptStub symbol getCoin) (UTM.sortStubs symbol stubs) := by
  cases stubs with
  | nil => simp [UTM.find_token_on_coingecko, UTM.sortStubs, UTM.firstSome]
  | cons x xs => rfl

/-- C7: the resolver returns `none` on an empty search result; it
examines stubs sorted by the score `(-exact_match, rank)` — a stable
permutation of the search result ordered so that exact case-insensitive
symbol matches come first and ascending market-cap rank breaks ties
(missing ranks scoring 10000) — and it returns `some r` exactly when
every stub before some accepted stub is rejected and that stub is
accepted as `r`, never examining anything after it. -/
theorem claim_C7_resolution :
    (∀ symbol getCoin, UTM.find_token_on_coingecko symbol [] getCoin = none) ∧
    (∀ symbol stubs, (UTM.sortStubs symbol stubs).Perm stubs ∧
        List.Pairwise (fun a b => UTM.scoreLe symbol a b = true)
          (UTM.sortStubs symbol stubs)) ∧
    (∀ symbol stubs getCoin r,
        UTM.find_token_on_coingecko symbol stubs getCoin = some r ↔
          ∃ l₁ s l₂, UTM.sortStubs symbol stubs = l₁ ++ s :: l₂ ∧
            (∀ t ∈ l₁, UTM.acceptStub symbol getCoin t = none) ∧
            UTM.acceptStub symbol getCoin s = some r) := by
  refine ⟨fun symbol getCoin => rfl, fun symbol stubs => ⟨List.mergeSort_perm _ _, ?_⟩,
    fun symbol stubs getCoin r => ?_⟩
  · exact List.sorted_mergeSort (scoreLe_trans symbol) (scoreLe_total symbol) stubs
  · rw [find_token_eq, firstSome_eq_some_iff]

/-- Head characterization of the code-point comparison. -/
theorem charsLt_cons_iff (a b : Char) (as bs : List Char) :
    charsLt (a :: as) (b :: bs) = true ↔ a < b ∨ (a = b ∧ charsLt as bs = true) := by
  simp only [charsLt]
  split_ifs with h1 h2
  · exact iff_of_true rfl (Or.inl h1)
  · constructor
    · intro h; simp at h
    · rintro (h | ⟨rfl, h⟩)
      · exact absurd h h1
      · exact absurd h2 (lt_irrefl a)
  · have hab : a = b := le_antisymm (not_lt.mp h2) (not_lt.mp h1)
    constructor
    · intro h; exact Or.inr ⟨hab, h⟩
    · rintro (h | ⟨-, h⟩)
      · exact absurd h h1
      · exact h

/-- The code-point comparison is irreflexive. -/
theorem charsLt_irrefl : ∀ x : List Char, charsLt x x = false
  | [] => rfl
  | a :: as => by
      rw [← Bool.not_eq_true, charsLt_cons_iff]
      rintro (h | ⟨-, h⟩)
      · exact absurd h (lt_irrefl a)
      · rw [charsLt_irrefl as] at h
        cases h

/-- The code-point comparison is asymmetric. -/
theorem charsLt_asymm : ∀ {x y : List Char}, charsLt x y = true → charsLt y x = false
  | [], [], h => by simp [charsLt] at h
  | [], _ :: _, _ => rfl
  | _ :: _, [], h => by simp [charsLt] at h
  | a :: as, b :: bs, h => by
      rw [← Bool.not_eq_true, charsLt_cons_iff]
      rcases (charsLt_cons_iff a b as bs).mp h with h1 | ⟨he, h1⟩
      · rintro (h2 | ⟨he2, -⟩)
        · exact absurd h2 (lt_asymm h1)
        · rw [he2] at h1
          exact absurd h1 (lt_irrefl a)
      · rintro (h2 | ⟨-, h2⟩)
        · rw [he] at h2
          exact absurd h2 (lt_irrefl b)
        · exact absurd h2 (by rw [charsLt_asymm h1]; simp)

/-- Lists neither of which precedes the other are equal. -/
theorem charsLt_conn : ∀ {x y : List Char},
    charsLt x y = false → charsLt y x = false → x = y
  | [], [], _, _ => rfl
  | [], _ :: _, h1, _ => by simp [charsLt] at h1
  | _ :: _, [], _, h2 => by simp [charsLt] at h2
  | a :: as, b :: bs, h1, h2 => by
      have hna : ¬(a < b ∨ (a = b ∧ charsLt as bs = true)) := by
        rw [← charsLt_cons_iff a b as bs]
        simp [h1]
      have hnb : ¬(b < a ∨ (b = a ∧ charsLt bs as = true)) := by
        rw [← charsLt_cons_iff b a bs as]
        simp [h2]
      push_neg at hna hnb
      have hab : a = b := le_antisymm hnb.1 hna.1
      have htail : as = bs := by
        refine charsLt_conn ?_ ?_
        · have := hna.2 hab
          revert this
          cases charsLt as bs <;> simp
        · have := hnb.2 hab.symm
          revert this
          cases charsLt bs as <;> simp
      rw [hab, htail]

/-- The code-point comparison is transitive. -/
theorem charsLt_trans : ∀ {x y z : List Char},
    charsLt x y = true → charsLt y z = true → charsLt x z = true
  | [], [], _, h1, _ => by simp [charsLt] at h1
  | [], _ :: _, [], _, h2 => by simp [charsLt] at h2
  | [], _ :: _, _ :: _, _, _ => rfl
  | _ :: _, [], _, h1, _ => by simp [charsLt] at h1
  | _ :: _, _ :: _, [], _, h2 => by simp [charsLt] at h2
  | a :: as, b :: bs, c :: cs, h1, h2 => by
      rw [charsLt_cons_iff]
      rcases (charsLt_cons_iff a b as bs).mp h1 with hab | ⟨e1, hab⟩ <;>
        rcases (charsLt_cons_iff b c bs cs).mp h2 with hbc | ⟨e2, hbc⟩
      · exact Or.inl (lt_trans hab hbc)
      · rw [← e2]
        exact Or.inl hab
      · rw [e1]
        exact Or.inl hbc
      · exact Or.inr ⟨e1.trans e2, charsLt_trans hab hbc⟩

/-- The tuple comparison is total. -/
theorem strPairLe_total (a b : String × String) :
    (strPairLe a b || strPairLe b a) = true := by
  unfold strPairLe
  by_cases c1 : charsLt a.1.data b.1.data
  · simp [c1]
  · by_cases c2 : charsLt b.1.data a.1.data
    · simp [c1, c2]
    · by_cases c3 : charsLt b.2.data a.2.data
      · have h4 : charsLt a.2.data b.2.data = false := charsLt_asymm c3
        simp [c1, c2, c3, h4]
      · simp [c1, c2, c3]

/-- The tuple comparison is transitive. -/
theorem strPairLe_trans (a b c : String × String)
    (hab : strPairLe a b = true) (hbc : strPairLe b c = true) :
    strPairLe a c = true := by
  unfold strPairLe at hab hbc ⊢
  by_cases h1 : charsLt a.1.data b.1.data
  · by_cases h2 : charsLt b.1.data c.1.data
    · simp [charsLt_trans h1 h2]
    · by_cases h3 : charsLt c.1.data b.1.data
      · rw [if_neg h2, if_pos h3] at hbc
        simp at hbc
      · have e2 : b.1.data = c.1.data := charsLt_conn (by rwa [Bool.not_eq_true] at h2)
          (by rwa [Bool.not_eq_true] at h3)
        rw [← e2]
        simp [h1]
  · by_cases h1' : charsLt b.1.data a.1.data
    · rw [if_neg h1, if_pos h1'] at hab
      simp at hab
    · have e1 : a.1.data = b.1.data := charsLt_conn (by rwa [Bool.not_eq_true] at h1)
        (by rwa [Bool.not_eq_true] at h1')
      rw [if_neg h1, if_neg h1', Bool.not_eq_true'] at hab
      by_cases h2 : charsLt b.1.data c.1.data
      · rw [e1]
        simp [h2]
      · by_cases h3 : charsLt c.1.data b.1.data
        · rw [if_neg h2, if_pos h3] at hbc
          simp at hbc
        · have e2 : b.1.data = c.1.data := charsLt_conn (by rwa [Bool.not_eq_true] at h2)
            (by rwa [Bool.not_eq_true] at h3)
          rw [if_neg h2, if_neg h3, Bool.not_eq_true'] at hbc
          have e3 : a.1.data = c.1.data := e1.trans e2
          rw [e3, if_neg (by rw [charsLt_irrefl]; exact Bool.false_ne_true),
            if_neg (by rw [charsLt_irrefl]; exact Bool.false_ne_true),
            Bool.not_eq_true']
          by_cases hca : charsLt c.2.data a.2.data
          · exfalso
            by_cases hbc2 : charsLt b.2.data c.2.data
            · rw [charsLt_trans hbc2 hca] at hab
              cases hab
            · have : b.2.data = c.2.data := charsLt_conn
                (by rwa [Bool.not_eq_true] at hbc2) hbc
              rw [← this] at hca
              rw [hca] at hab
              cases hab
          · rwa [Bool.not_eq_true] at hca

/-- The scanner's entry comparison is total. -/
theorem entryKeyLe_total (a b : SC.SEntry) :
    (SC.entryKeyLe a b || SC.entryKeyLe b a) = true :=
  strPairLe_total (a.symbol, a.chain) (b.symbol, b.chain)

/-- The scanner's entry comparison is transitive. -/
theorem entryKeyLe_trans (a b c : SC.SEntry)
    (hab : SC.entryKeyLe a b = true) (hbc : SC.entryKeyLe b c = true) :
    SC.entryKeyLe a c = true :=
  strPairLe_trans (a.symbol, a.chain) (b.symbol, b.chain) (c.symbol, c.chain) hab hbc

/-- One reconciliation step appends the same (possibly empty) batch to
both the registry and the added list. -/
theorem reconcileStep_shape (st : UTM.RState) (r : UTM.ResolvedToken) :
    ∃ δ, (UTM.reconcileStep st r).tokens = st.tokens ++ δ ∧
      (UTM.reconcileStep st r).added = st.added ++ δ := by
  by_cases h1 : lowerStr r.coingecko_id ∈ st.existing_ids
  · exact ⟨[], by simp [UTM.reconcileStep, h1], by simp [UTM.reconcileStep, h1]⟩
  · by_cases h2 : (lowerStr r.chain, lowerStr r.address) ∈ st.existing_chain_addr
    · exact ⟨[], by simp [UTM.reconcileStep, h1, h2], by simp [UTM.reconcileStep, h1, h2]⟩
    · exact ⟨[UTM.entryOf r], by simp [UTM.reconcileStep, h1, h2],
        by simp [UTM.reconcileStep, h1, h2]⟩

/-- The reconciliation fold appends one batch to both the registry and
the added list. -/
theorem reconcileFold_shape (rs : List UTM.ResolvedToken) :
    ∀ st : UTM.RState, ∃ δ,
      (rs.foldl UTM.reconcileStep st).tokens = st.tokens ++ δ ∧
        (rs.foldl UTM.reconcileStep st).added = st.added ++ δ := by
  induction rs with
  | nil => intro st; exact ⟨[], by simp, by simp⟩
  | cons r rs ih =>
      intro st
      obtain ⟨δ₁, h1, h2⟩ := reconcileStep_shape st r
      obtain ⟨δ₂, h3, h4⟩ := ih (UTM.reconcileStep st r)
      exact ⟨δ₁ ++ δ₂, by rw [List.foldl_cons, h3, h1, List.append_assoc],
        by rw [List.foldl_cons, h4, h2, List.append_assoc]⟩

/-- C6 (corrected), counterexample: the update pipeline's reconciler
does not sort.  Starting from a registry holding only symbol `BBB` and
resolving a token with the smaller symbol `AAA`, the persisted output is
`[BBB, AAA]`, which is not ordered by `(symbol, chain)`. -/
theorem claim_C6_counterexample :
    ((UTM.reconcile
        [{ symbol := "BBB", name := "B", chain := "bnb", address := "0xb",
           coingecko_id := "idb", active := true, listedon_first_listing_date := none,
           listedon_exchanges := [], listedon_url := "ub" }]
        [{ symbol := "AAA", name := "A", coingecko_id := "ida", chain := "bnb",
           address := "0xa", first_date := none, exchanges := [], url := "ua" }]).tokens.map
      (fun e => (e.symbol, e.chain))) = [("BBB", "bnb"), ("AAA", "bnb")] ∧
    ¬ List.Pairwise (fun a b : UTM.TokenEntry =>
        strPairLe (a.symbol, a.chain) (b.symbol, b.chain) = true)
      (UTM.reconcile
        [{ symbol := "BBB", name := "B", chain := "bnb", address := "0xb",
           coingecko_id := "idb", active := true, listedon_first_listing_date := none,
           listedon_exchanges := [], listedon_url := "ub" }]
        [{ symbol := "AAA", name := "A", coingecko_id := "ida", chain := "bnb",
           address := "0xa", first_date := none, exchanges := [], url := "ua" }]).tokens := by
  decide

/-- C6 (amended): the update pipeline's reconciler appends new entries
after the existing ones without re-sorting (its output registry is the
existing entries followed by the added entries in processing order);
the deterministic `(symbol, chain)` ordering exists only in
`scanner.py`, whose `scan_tokens` sorts the freshly built registry it
returns. -/
theorem claim_C6_ordering :
    (∀ existing resolved,
        (UTM.reconcile existing resolved).tokens
          = existing ++ (UTM.reconcile existing resolved).added) ∧
    (∀ responses details out, SC.scan_tokens responses details = .ok out →
        List.Pairwise (fun a b => SC.entryKeyLe a b = true) out) := by
  constructor
  · intro existing resolved
    obtain ⟨δ, h1, h2⟩ := reconcileFold_shape resolved (UTM.initState existing)
    have ht : (UTM.initState existing).tokens = existing := rfl
    have ha : (UTM.initState existing).added = [] := rfl
    rw [UTM.reconcile, h1, h2, ht, ha, List.nil_append]
  · intro responses details out h
    unfold SC.scan_tokens at h
    cases hf : SC.fetch_markets_candidates responses with
    | error e =>
        rw [hf] at h
        cases h
    | ok cands =>
        rw [hf] at h
        have hout : ((SC.processCands details cands []).map
            (fun kv => kv.2.1)).mergeSort SC.entryKeyLe = out := by
          injection h
        rw [← hout]
        exact List.sorted_mergeSort entryKeyLe_trans entryKeyLe_total _

/-- C6 witness: a scan whose only markets page is empty returns an
(trivially) sorted empty registry. -/
theorem claim_C6_ordering_witness :
    List.Pairwise (fun a b => SC.entryKeyLe a b = true) ([] : List SC.SEntry) := by
  apply claim_C6_ordering.2 (fun _ => (200, [])) (fun _ => none) []
  have h : SC.fetch_markets_candidates (fun _ => (200, [])) = .ok ([] : List SC.MCand) := rfl
  unfold SC.scan_tokens
  rw [h]
  simp [SC.processCands, List.mergeSort_nil]

/-- C8 (corrected), counterexample: in `scanner.py` a non-success
response for a single markets page is raised by `cg_request` and nothing
catches it inside `fetch_markets_candidates`, so one failing page unit
aborts the whole scan instead of being skipped. -/
theorem claim_C8_counterexample :
    SC.scan_tokens (fun _ => (500, [])) (fun _ => none)
      = .error ("CoinGecko error " ++ toString 500) := by
  rfl

/-- C8 (amended): per-unit failure containment holds for per-coin
details fetches in `scanner.py` (a failed fetch skips that coin and the
scan continues with the rest) and for `update_token_map_from_listedon.py`
(a failed page fetch merely ends that exchange's pagination, returning
the rows collected so far — the run continues), but a transport error or
non-success response on a `scanner.py` markets page propagates out of
`fetch_markets_candidates` and aborts the scan. -/
theorem claim_C8_error_handling :
    (∀ (details : String → Option SC.CoinDet) (c : SC.MCand) (rest : List SC.MCand)
        (d : SC.TokensByKey), details c.id = none →
        SC.processCands details (c :: rest) d = SC.processCands details rest d) ∧
    (∀ (responses : Nat → Nat × List SC.CoinMkt) (e : String),
        SC.cg_request (responses 1) = .error e →
        ∀ details, SC.scan_tokens responses details = .error e) ∧
    (∀ pages : Nat → Option (List UTM.ExRow), pages 1 = none →
        UTM.fetch_exchange_candidates pages = []) := by
  refine ⟨?_, ?_, ?_⟩
  · intro details c rest d h
    simp only [SC.processCands, h]
  · intro responses e h details
    unfold SC.scan_tokens SC.fetch_markets_candidates
    show (match SC.fetchMarketsLoop responses (19 + 1) 1 [] with
      | .error e => Except.error e
      | .ok candidates =>
          Except.ok (((SC.processCands details candidates []).map
            (fun kv => kv.2.1)).mergeSort SC.entryKeyLe)) = Except.error e
    simp only [SC.fetchMarketsLoop, h]
  · intro pages h
    unfold UTM.fetch_exchange_candidates
    show UTM.fetchExchangeLoop pages (9 + 1) 1 [] = []
    simp only [UTM.fetchExchangeLoop, h]

/-- C8 witness: a coin whose details fetch fails is skipped and
processing continues as if it were absent. -/
theorem claim_C8_witness :
    SC.processCands (fun _ => none)
        [{ id := "x", symbol := "X", name := "X", market_cap := 5 }] []
      = SC.processCands (fun _ => none) [] [] :=
  claim_C8_error_handling.1 (fun _ => none)
    { id := "x", symbol := "X", name := "X", market_cap := 5 } [] [] rfl

/-- A loaded entry with a non-empty lowercased key is registered in
`existing_chain_addr`. -/
theorem buildKeys_mem (tokens : List UTM.TokenEntry) (t : UTM.TokenEntry)
    (ht : t ∈ tokens) (hc : lowerStr t.chain ≠ "") (ha : lowerStr t.address ≠ "") :
    (lowerStr t.chain, lowerStr t.address) ∈ UTM.buildKeys tokens := by
  induction tokens with
  | nil => cases ht
  | cons s ts ih =>
      simp only [UTM.buildKeys]
      rcases List.mem_cons.mp ht with h | hmem
      · rw [h] at hc ha ⊢
        rw [if_pos ⟨hc, ha⟩]
        exact List.mem_cons_self _ _
      · split
        · exact List.mem_cons_of_mem _ (ih hmem)
        · exact ih hmem

/-- A loaded entry with a non-empty lowercased id is registered in
`existing_ids`. -/
theorem buildIds_mem (tokens : List UTM.TokenEntry) (t : UTM.TokenEntry)
    (ht : t ∈ tokens) (h : lowerStr t.coingecko_id ≠ "") :
    lowerStr t.coingecko_id ∈ UTM.buildIds tokens := by
  induction tokens with
  | nil => cases ht
  | cons s ts ih =>
      simp only [UTM.buildIds]
      rcases List.mem_cons.mp ht with heq | hmem
      · rw [heq] at h ⊢
        rw [if_pos h]
        exact List.mem_cons_self _ _
      · split
        · exact List.mem_cons_of_mem _ (ih hmem)
        · exact ih hmem

/-- Everything in `existing_ids` as built from a registry is the
non-empty lowercased id of some entry of that registry. -/
theorem buildIds_sound (tokens : List UTM.TokenEntry) :
    ∀ c ∈ UTM.buildIds tokens,
      ∃ t ∈ tokens, lowerStr t.coingecko_id = c ∧ c ≠ "" := by
  induction tokens with
  | nil => intro c hc; cases hc
  | cons s ts ih =>
      intro c hc
      simp only [UTM.buildIds] at hc
      by_cases hs : lowerStr s.coingecko_id ≠ ""
      · rw [if_pos hs] at hc
        rcases List.mem_cons.mp hc with heq | hmem
        · exact ⟨s, List.mem_cons_self _ _, heq.symm, heq ▸ hs⟩
        · obtain ⟨t, htm, hp⟩ := ih c hmem
          exact ⟨t, List.mem_cons_of_mem _ htm, hp⟩
      · rw [if_neg hs] at hc
        obtain ⟨t, htm, hp⟩ := ih c hc
        exact ⟨t, List.mem_cons_of_mem _ htm, hp⟩

/-- Everything in `existing_chain_addr` as built from a registry is the
lowercased key of some entry, with both components non-empty. -/
theorem buildKeys_sound (tokens : List UTM.TokenEntry) :
    ∀ k ∈ UTM.buildKeys tokens,
      ∃ t ∈ tokens, (lowerStr t.chain, lowerStr t.address) = k ∧
        k.1 ≠ "" ∧ k.2 ≠ "" := by
  induction tokens with
  | nil => intro k hk; cases hk
  | cons s ts ih =>
      intro k hk
      simp only [UTM.buildKeys] at hk
      by_cases hs : lowerStr s.chain ≠ "" ∧ lowerStr s.address ≠ ""
      · rw [if_pos hs] at hk
        rcases List.mem_cons.mp hk with heq | hmem
        · exact ⟨s, List.mem_cons_self _ _, heq.symm, heq ▸ hs.1, heq ▸ hs.2⟩
        · obtain ⟨t, htm, hp⟩ := ih k hmem
          exact ⟨t, List.mem_cons_of_mem _ htm, hp⟩
      · rw [if_neg hs] at hk
        obtain ⟨t, htm, hp⟩ := ih k hk
        exact ⟨t, List.mem_cons_of_mem _ htm, hp⟩

/-- A skipping step leaves the state untouched; an appending step conses
both keys and appends the entry: case analysis packaged for reuse. -/
theorem reconcileStep_cases (st : UTM.RState) (r : UTM.ResolvedToken) :
    UTM.reconcileStep st r = st ∨
      (lowerStr r.coingecko_id ∉ st.existing_ids ∧
        (lowerStr r.chain, lowerStr r.address) ∉ st.existing_chain_addr ∧
        UTM.reconcileStep st r =
          { tokens := st.tokens ++ [UTM.entryOf r],
            existing_ids := lowerStr r.coingecko_id :: st.existing_ids,
            existing_chain_addr :=
              (lowerStr r.chain, lowerStr r.address) :: st.existing_chain_addr,
            added := st.added ++ [UTM.entryOf r] }) := by
  by_cases h1 : lowerStr r.coingecko_id ∈ st.existing_ids
  · exact Or.inl (by simp [UTM.reconcileStep, h1])
  · by_cases h2 : (lowerStr r.chain, lowerStr r.address) ∈ st.existing_chain_addr
    · exact Or.inl (by simp [UTM.reconcileStep, h1, h2])
    · exact Or.inr ⟨h1, h2, by simp [UTM.reconcileStep, h1, h2]⟩

/-- The dedup id set only grows along a step. -/
theorem reconcileStep_ids_sub (st : UTM.RState) (r : UTM.ResolvedToken) :
    st.existing_ids ⊆ (UTM.reconcileStep st r).existing_ids := by
  rcases reconcileStep_cases st r with h | ⟨-, -, h⟩ <;> rw [h]
  · exact fun x hx => hx
  · exact fun x hx => List.mem_cons_of_mem _ hx

/-- The dedup key set only grows along a step. -/
theorem reconcileStep_keys_sub (st : UTM.RState) (r : UTM.ResolvedToken) :
    st.existing_chain_addr ⊆ (UTM.reconcileStep st r).existing_chain_addr := by
  rcases reconcileStep_cases st r with h | ⟨-, -, h⟩ <;> rw [h]
  · exact fun x hx => hx
  · exact fun x hx => List.mem_cons_of_mem _ hx

/-- The dedup id set only grows along the fold. -/
theorem reconcileFold_ids_sub (rs : List UTM.ResolvedToken) :
    ∀ st : UTM.RState,
      st.existing_ids ⊆ (rs.foldl UTM.reconcileStep st).existing_ids := by
  induction rs with
  | nil => intro st x hx; simpa using hx
  | cons r rs ih =>
      intro st x hx
      rw [List.foldl_cons]
      exact ih _ (reconcileStep_ids_sub st r hx)

/-- The dedup key set only grows along the fold. -/
theorem reconcileFold_keys_sub (rs : List UTM.ResolvedToken) :
    ∀ st : UTM.RState,
      st.existing_chain_addr ⊆ (rs.foldl UTM.reconcileStep st).existing_chain_addr := by
  induction rs with
  | nil => intro st x hx; simpa using hx
  | cons r rs ih =>
      intro st x hx
      rw [List.foldl_cons]
      exact ih _ (reconcileStep_keys_sub st r hx)

/-- After the fold, every processed token's lowercased id or key is in
the corresponding dedup set. -/
theorem reconcileFold_covers (rs : List UTM.ResolvedToken) :
    ∀ st : UTM.RState, ∀ r ∈ rs,
      lowerStr r.coingecko_id ∈ (rs.foldl UTM.reconcileStep st).existing_ids ∨
        (lowerStr r.chain, lowerStr r.address)
          ∈ (rs.foldl UTM.reconcileStep st).existing_chain_addr := by
  induction rs with
  | nil => intro st r hr; cases hr
  | cons q rs ih =>
      intro st r hr
      rw [List.foldl_cons]
      rcases List.mem_cons.mp hr with heq | hmem
      · rw [heq]
        by_cases h1 : lowerStr q.coingecko_id ∈ st.existing_ids
        · exact Or.inl (reconcileFold_ids_sub rs _ (reconcileStep_ids_sub st q h1))
        · by_cases h2 : (lowerStr q.chain, lowerStr q.address) ∈ st.existing_chain_addr
          · exact Or.inr (reconcileFold_keys_sub rs _ (reconcileStep_keys_sub st q h2))
          · refine Or.inl (reconcileFold_ids_sub rs _ ?_)
            have hstep : (UTM.reconcileStep st q).existing_ids
                = lowerStr q.coingecko_id :: st.existing_ids := by
              simp [UTM.reconcileStep, h1, h2]
            rw [hstep]
            exact List.mem_cons_self _ _
      · exact ih _ r hmem

/-- The id dedup set stays sound along the fold: each member is the
non-empty lowercased id of a registry entry. -/
theorem reconcileFold_ids_sound (rs : List UTM.ResolvedToken) :
    ∀ st : UTM.RState, (∀ r ∈ rs, r.coingecko_id ≠ "") →
      (∀ c ∈ st.existing_ids, ∃ t ∈ st.tokens, lowerStr t.coingecko_id = c ∧ c ≠ "") →
      ∀ c ∈ (rs.foldl UTM.reconcileStep st).existing_ids,
        ∃ t ∈ (rs.foldl UTM.reconcileStep st).tokens,
          lowerStr t.coingecko_id = c ∧ c ≠ "" := by
  induction rs with
  | nil => intro st _ hsound; simpa using hsound
  | cons r rs ih =>
      intro st hrs hsound
      rw [List.foldl_cons]
      apply ih _ (fun x hx => hrs x (List.mem_cons_of_mem _ hx))
      rcases reconcileStep_cases st r with h | ⟨-, -, h⟩ <;> rw [h]
      · exact hsound
      · intro c hc
        rcases List.mem_cons.mp hc with heq | hmem
        · refine ⟨UTM.entryOf r, List.mem_append_right _ (List.mem_singleton_self _), ?_, ?_⟩
          · rw [heq]; rfl
          · rw [heq]
            exact lowerStr_ne_empty (hrs r (List.mem_cons_self _ _))
        · obtain ⟨t, htm, hp⟩ := hsound c hmem
          exact ⟨t, List.mem_append_left _ htm, hp⟩

/-- The key dedup set stays sound along the fold: each member is the
lowercased key of a registry entry, both components non-empty. -/
theorem reconcileFold_keys_sound (rs : List UTM.ResolvedToken) :
    ∀ st : UTM.RState, (∀ r ∈ rs, r.chain ≠ "" ∧ r.address ≠ "") →
      (∀ k ∈ st.existing_chain_addr, ∃ t ∈ st.tokens,
        (lowerStr t.chain, lowerStr t.address) = k ∧ k.1 ≠ "" ∧ k.2 ≠ "") →
      ∀ k ∈ (rs.foldl UTM.reconcileStep st).existing_chain_addr,
        ∃ t ∈ (rs.foldl UTM.reconcileStep st).tokens,
          (lowerStr t.chain, lowerStr t.address) = k ∧ k.1 ≠ "" ∧ k.2 ≠ "" := by
  induction rs with
  | nil => intro st _ hsound; simpa using hsound
  | cons r rs ih =>
      intro st hrs hsound
      rw [List.foldl_cons]
      apply ih _ (fun x hx => hrs x (List.mem_cons_of_mem _ hx))
      rcases reconcileStep_cases st r with h | ⟨-, -, h⟩ <;> rw [h]
      · exact hsound
      · intro k hk
        rcases List.mem_cons.mp hk with heq | hmem
        · refine ⟨UTM.entryOf r, List.mem_append_right _ (List.mem_singleton_self _), ?_, ?_, ?_⟩
          · rw [heq]; rfl
          · rw [heq]
            exact lowerStr_ne_empty (hrs r (List.mem_cons_self _ _)).1
          · rw [heq]
            exact lowerStr_ne_empty (hrs r (List.mem_cons_self _ _)).2
        · obtain ⟨t, htm, hp⟩ := hsound k hmem
          exact ⟨t, List.mem_append_left _ htm, hp⟩

/-- When every token is already covered by the dedup sets, the fold is a
no-op. -/
theorem reconcileFold_noop (rs : List UTM.ResolvedToken) :
    ∀ st : UTM.RState,
      (∀ r ∈ rs, lowerStr r.coingecko_id ∈ st.existing_ids ∨
        (lowerStr r.chain, lowerStr r.address) ∈ st.existing_chain_addr) →
      rs.foldl UTM.reconcileStep st = st := by
  induction rs with
  | nil => intro st _; rfl
  | cons r rs ih =>
      intro st h
      rw [List.foldl_cons]
      have hstep : UTM.reconcileStep st r = st := by
        rcases h r (List.mem_cons_self _ _) with h1 | h2
        · simp [UTM.reconcileStep, h1]
        · by_cases h1 : lowerStr r.coingecko_id ∈ st.existing_ids
          · simp [UTM.reconcileStep, h1]
          · simp [UTM.reconcileStep, h1, h2]
      rw [hstep]
      exact ih st (fun x hx => h x (List.mem_cons_of_mem _ hx))

/-- The reconciliation fold preserves pairwise-distinct identity keys,
given that each entry's lowercased non-empty key is tracked in
`existing_chain_addr` and every resolved token has non-empty chain and
address. -/
theorem reconcileFold_unique (rs : List UTM.ResolvedToken) :
    ∀ st : UTM.RState,
      (∀ r ∈ rs, r.chain ≠ "" ∧ r.address ≠ "") →
      List.Pairwise (fun a b => UTM.identityKey a ≠ UTM.identityKey b) st.tokens →
      (∀ e ∈ st.tokens, lowerStr e.chain ≠ "" → lowerStr e.address ≠ "" →
        (lowerStr e.chain, lowerStr e.address) ∈ st.existing_chain_addr) →
      List.Pairwise (fun a b => UTM.identityKey a ≠ UTM.identityKey b)
        (rs.foldl UTM.reconcileStep st).tokens := by
  induction rs with
  | nil => intro st _ hp _; simpa using hp
  | cons r rs ih =>
      intro st hrs hp hinv
      rw [List.foldl_cons]
      have hr := hrs r (List.mem_cons_self _ _)
      apply ih _ (fun x hx => hrs x (List.mem_cons_of_mem _ hx))
      · -- pairwise keys survive the step
        rcases reconcileStep_cases st r with h | ⟨-, h2, h⟩ <;> rw [h]
        · exact hp
        · rw [List.pairwise_append]
          refine ⟨hp, List.pairwise_singleton _ _, ?_⟩
          intro a ha b hb
          rw [List.mem_singleton.mp hb]
          intro heq
          rw [UTM.identityKey, UTM.identityKey, Prod.mk.injEq] at heq
          have hch : a.chain = r.chain := heq.1
          have had : lowerStr a.address = lowerStr r.address := heq.2
          have hmem := hinv a ha
            (by rw [hch]; exact lowerStr_ne_empty hr.1)
            (by rw [had]; exact lowerStr_ne_empty hr.2)
          rw [hch, had] at hmem
          exact h2 hmem
      · -- the key-tracking invariant survives the step
        rcases reconcileStep_cases st r with h | ⟨-, -, h⟩ <;> rw [h]
        · exact hinv
        · intro e he hc ha
          rcases List.mem_append.mp he with hmem | hsing
          · exact List.mem_cons_of_mem _ (hinv e hmem hc ha)
          · rw [List.mem_singleton.mp hsing]
            exact List.mem_cons_self _ _

/-- C1: starting from a registry with pairwise-distinct identity keys
`(chain, lowercased address)` and resolving tokens with non-empty chain
and address (as the resolver guarantees), the produced registry still
has pairwise-distinct identity keys: a token whose key is already
present — loaded or added earlier in the run — is skipped, never
appended. -/
theorem claim_C1_uniqueness (existing : List UTM.TokenEntry)
    (resolved : List UTM.ResolvedToken)
    (hex : List.Pairwise (fun a b => UTM.identityKey a ≠ UTM.identityKey b) existing)
    (hres : ∀ r ∈ resolved, r.chain ≠ "" ∧ r.address ≠ "") :
    List.Pairwise (fun a b => UTM.identityKey a ≠ UTM.identityKey b)
      (UTM.reconcile existing resolved).tokens := by
  apply reconcileFold_unique resolved (UTM.initState existing) hres hex
  intro e he hc ha
  exact buildKeys_mem existing e he hc ha

/-- C1 witness: resolving the same token twice against a one-entry
registry still yields pairwise-distinct identity keys. -/
theorem claim_C1_uniqueness_witness :
    List.Pairwise (fun a b => UTM.identityKey a ≠ UTM.identityKey b)
      (UTM.reconcile
        [{ symbol := "BBB", name := "B", chain := "bnb", address := "0xB",
           coingecko_id := "idb", active := true, listedon_first_listing_date := none,
           listedon_exchanges := [], listedon_url := "ub" }]
        [{ symbol := "AAA", name := "A", coingecko_id := "ida", chain := "bnb",
           address := "0xA", first_date := none, exchanges := [], url := "ua" },
         { symbol := "AAA", name := "A", coingecko_id := "ida", chain := "bnb",
           address := "0xA", first_date := none, exchanges := [], url := "ua" }]).tokens :=
  claim_C1_uniqueness _ _ (by decide) (by decide)

/-- C2: rerunning the reconciliation with the same resolved tokens on
the registry produced by a first run changes nothing — the registry is
identical and the second run adds zero entries — given each resolved
token's id, chain and address are non-empty (as the resolver
guarantees). -/
theorem claim_C2_idempotent (existing : List UTM.TokenEntry)
    (resolved : List UTM.ResolvedToken)
    (hres : ∀ r ∈ resolved, r.coingecko_id ≠ "" ∧ r.chain ≠ "" ∧ r.address ≠ "") :
    (UTM.reconcile (UTM.reconcile existing resolved).tokens resolved).tokens
        = (UTM.reconcile existing resolved).tokens ∧
    (UTM.reconcile (UTM.reconcile existing resolved).tokens resolved).added = [] := by
  have hnoop : UTM.reconcile (UTM.reconcile existing resolved).tokens resolved
      = UTM.initState (UTM.reconcile existing resolved).tokens := by
    apply reconcileFold_noop
    intro r hr
    rcases reconcileFold_covers resolved (UTM.initState existing) r hr with h1 | h2
    · obtain ⟨t, htm, hteq, hne⟩ := reconcileFold_ids_sound resolved
        (UTM.initState existing) (fun x hx => (hres x hx).1)
        (buildIds_sound existing) _ h1
      refine Or.inl ?_
      have hb := buildIds_mem (UTM.reconcile existing resolved).tokens t htm
        (by rw [hteq]; exact hne)
      rw [hteq] at hb
      exact hb
    · obtain ⟨t, htm, hteq, hne1, hne2⟩ := reconcileFold_keys_sound resolved
        (UTM.initState existing) (fun x hx => ⟨(hres x hx).2.1, (hres x hx).2.2⟩)
        (buildKeys_sound existing) _ h2
      refine Or.inr ?_
      have hcomp := hteq
      rw [Prod.mk.injEq] at hcomp
      have hb := buildKeys_mem (UTM.reconcile existing resolved).tokens t htm
        (by rw [hcomp.1]; exact hne1)
        (by rw [hcomp.2]; exact hne2)
      rw [hteq] at hb
      exact hb
  exact ⟨by rw [hnoop]; rfl, by rw [hnoop]; rfl⟩

/-- C2 witness: a concrete rerun on the produced registry adds nothing
and leaves the registry identical. -/
theorem claim_C2_idempotent_witness :
    (UTM.reconcile
          (UTM.reconcile
            [{ symbol := "BBB", name := "B", chain := "bnb", address := "0xB",
               coingecko_id := "idb", active := true,
               listedon_first_listing_date := none,
               listedon_exchanges := [], listedon_url := "ub" }]
            [{ symbol := "AAA", name := "A", coingecko_id := "ida", chain := "bnb",
               address := "0xA", first_date := none, exchanges := [], url := "ua" }]).tokens
          [{ symbol := "AAA", name := "A", coingecko_id := "ida", chain := "bnb",
             address := "0xA", first_date := none, exchanges := [], url := "ua" }]).tokens
        = (UTM.reconcile
            [{ symbol := "BBB", name := "B", chain := "bnb", address := "0xB",
               coingecko_id := "idb", active := true,
               listedon_first_listing_date := none,
               listedon_exchanges := [], listedon_url := "ub" }]
            [{ symbol := "AAA", name := "A", coingecko_id := "ida", chain := "bnb",
               address := "0xA", first_date := none, exchanges := [], url := "ua" }]).tokens ∧
    (UTM.reconcile
          (UTM.reconcile
            [{ symbol := "BBB", name := "B", chain := "bnb", address := "0xB",
               coingecko_id := "idb", active := true,
               listedon_first_listing_date := none,
               listedon_exchanges := [], listedon_url := "ub" }]
            [{ symbol := "AAA", name := "A", coingecko_id := "ida", chain := "bnb",
               address := "0xA", first_date := none, exchanges := [], url := "ua" }]).tokens
          [{ symbol := "AAA", name := "A", coingecko_id := "ida", chain := "bnb",
             address := "0xA", first_date := none, exchanges := [], url := "ua" }]).added
        = [] :=
  claim_C2_idempotent _ _ (by decide)
